import Mathlib

/-!
Shallow embedding of the core of the react-gui-tool repository:
packet codec (src/lib/packet/types.ts, parser.ts), the serial read
loop with its frame assembly (src/lib/serial/serialService.ts,
startReadLoop), and the waveform window buffer and autoscale
computation (src/components/WaveformChart.tsx).

Bytes are modelled as `Nat` (the code stores them in JS arrays of
numbers in 0..255); an `ArrayBuffer` is a `List Nat`; JS numbers used
by the chart arithmetic are modelled as `ℚ` (every value occurring in
the verified computations is exactly representable as an IEEE-754
double, and each claimed arithmetic result is exact in doubles —
in particular `fl(20 * fl(0.05)) = 1` exactly, since the real product
`1 + 2^-54` rounds to `1` — so exact rational arithmetic agrees with
the JS evaluation at all inputs the claims mention).
-/

namespace ReactGuiTool

/-! ### Packet constants and types (src/lib/packet/types.ts) -/

/-- `PACKET_SIZE = 16`: bytes per packet. -/
def PACKET_SIZE : Nat := 16

/-- `CHANNEL_COUNT = 4`: number of channels ch0..ch3. -/
def CHANNEL_COUNT : Nat := 4

/-- `BYTES_PER_CHANNEL = 4`: bytes per channel value (32 bit). -/
def BYTES_PER_CHANNEL : Nat := 4

/-- Parsed packet: each channel a 32-bit unsigned value. -/
structure PacketData where
  ch0 : Nat
  ch1 : Nat
  ch2 : Nat
  ch3 : Nat
deriving DecidableEq, Repr

/-! ### Packet parser (src/lib/packet/parser.ts) -/

/-- `DataView.getUint32(i, true)`: read 4 bytes at index `i` of the
view, little-endian (byte `i` least significant). Out-of-range reads
default to 0, but the parser only ever calls this with `i + 3` inside
the 16-byte view. -/
def getUint32LE (view : List Nat) (i : Nat) : Nat :=
  view.getD i 0 + view.getD (i + 1) 0 * 256 +
    view.getD (i + 2) 0 * 256 ^ 2 + view.getD (i + 3) 0 * 256 ^ 3

/-- `parsePacket(buffer, offset = 0)`: throws a `RangeError` when the
buffer holds fewer than `offset + PACKET_SIZE` bytes, otherwise reads
the 16-byte window `[offset, offset + 16)` through a
`DataView(buffer, offset, PACKET_SIZE)` and decodes, for `i` in 0..3,
channel `i` from bytes `[4*i, 4*i+4)` of the view, little-endian. -/
def parsePacket (buffer : List Nat) (offset : Nat := 0) :
    Except String PacketData :=
  if buffer.length < offset + PACKET_SIZE then
    Except.error "parsePacket: RangeError, buffer shorter than 16 bytes"
  else
    let view := (buffer.drop offset).take PACKET_SIZE
    Except.ok
      { ch0 := getUint32LE view 0
        ch1 := getUint32LE view BYTES_PER_CHANNEL
        ch2 := getUint32LE view (BYTES_PER_CHANNEL * 2)
        ch3 := getUint32LE view (BYTES_PER_CHANNEL * 3) }

/-- Writing one unsigned 32-bit value as 4 bytes, little-endian, as the
spec's round-trip property constructs blocks (byte `k` is
`v / 256^k % 256`). -/
def putUint32LE (v : Nat) : List Nat :=
  [v % 256, v / 256 % 256, v / 256 ^ 2 % 256, v / 256 ^ 3 % 256]

/-! ### Serial read loop (src/lib/serial/serialService.ts) -/

/-- Outcome of one `reader.read()`: a byte chunk, end-of-stream
(`done`), or a thrown error (an `AbortError` when `isAbort`). -/
inductive ReadResult where
  | chunk (bytes : List Nat)
  | done
  | fail (isAbort : Bool)
deriving DecidableEq, Repr

/-- Observable callback invocations of the read loop:
`onPacket(d)`, the `onError` call from the inner parse `catch`, or the
`onError` call from the outer `catch` for a non-abort read failure. -/
inductive LoopEvent where
  | packet (d : PacketData)
  | parseError
  | fatalError
deriving DecidableEq, Repr

/-- Inner `while (buffer.length >= PACKET_SIZE)` loop of
`startReadLoop`: splice the leading 16 bytes into a fresh 16-byte
`ArrayBuffer`, `parsePacket` it — `onPacket` on success, `onError` in
the `catch` — and repeat; returns the emitted events and the bytes
left in `buffer` (fewer than 16). -/
def drainFrames (buf : List Nat) : List LoopEvent × List Nat :=
  if h : PACKET_SIZE ≤ buf.length then
    let slice := buf.take PACKET_SIZE
    let ev :=
      match parsePacket slice 0 with
      | Except.ok d => LoopEvent.packet d
      | Except.error _ => LoopEvent.parseError
    let rest := drainFrames (buf.drop PACKET_SIZE)
    (ev :: rest.1, rest.2)
  else ([], buf)
termination_by buf.length
decreasing_by
  simp only [List.length_drop]
  simp only [PACKET_SIZE] at h ⊢
  omega

/-- Outer `while (true)` loop of `startReadLoop`. `aborted i` is the
state of `signal.aborted` observed at the top of iteration `i`
(checked before the `i`-th `reader.read()`); `buf` the carry-over
buffer; `reads` the remaining reader outcomes. A `done` result breaks
the loop; a thrown read error ends the loop and reaches `onError` only
when it is not an `AbortError`. -/
def runReadLoop (aborted : Nat → Bool) (i : Nat) (buf : List Nat) :
    List ReadResult → List LoopEvent
  | [] => []
  | r :: rest =>
    if aborted i then []
    else
      match r with
      | ReadResult.done => []
      | ReadResult.fail isAbort =>
        if isAbort then [] else [LoopEvent.fatalError]
      | ReadResult.chunk c =>
        let p := drainFrames (buf ++ c)
        p.1 ++ runReadLoop aborted (i + 1) p.2 rest

/-- The consecutive complete 16-byte frames of a byte sequence, in
stream order. -/
def frames (buf : List Nat) : List (List Nat) :=
  if h : PACKET_SIZE ≤ buf.length then
    buf.take PACKET_SIZE :: frames (buf.drop PACKET_SIZE)
  else []
termination_by buf.length
decreasing_by
  simp only [List.length_drop]
  simp only [PACKET_SIZE] at h ⊢
  omega

/-- The tail of a byte sequence after removing all leading complete
16-byte frames (the carry-over). -/
def leftover (buf : List Nat) : List Nat :=
  if h : PACKET_SIZE ≤ buf.length then leftover (buf.drop PACKET_SIZE)
  else buf
termination_by buf.length
decreasing_by
  simp only [List.length_drop]
  simp only [PACKET_SIZE] at h ⊢
  omega

/-- Decoding of one exactly-16-byte frame: channel `i` from bytes
`[4*i, 4*i+4)`, little-endian. -/
def decodeFrame (f : List Nat) : PacketData :=
  { ch0 := getUint32LE f 0
    ch1 := getUint32LE f BYTES_PER_CHANNEL
    ch2 := getUint32LE f (BYTES_PER_CHANNEL * 2)
    ch3 := getUint32LE f (BYTES_PER_CHANNEL * 3) }

/-- Carry-over buffer contents after the read loop has processed a
sequence of chunks (the state at the next `await reader.read()`). -/
def carryAfter (chunks : List (List Nat)) : List Nat :=
  chunks.foldl (fun buf c => (drainFrames (buf ++ c)).2) []

/-! ### Waveform chart (src/components/WaveformChart.tsx) -/

/-- `POINTS = 20`: number of points on the x axis / window capacity. -/
def POINTS : Nat := 20

/-- `Y_MAX = 2 ** 32`: fixed upper bound of the y axis. -/
def Y_MAX : ℚ := 2 ^ 32

/-- One datum of the per-channel chart data. -/
structure ChartDatum where
  point : Nat
  value : Option ℚ
deriving DecidableEq, Repr

/-- `buildChartData(buffer)`: for `i` in `0..POINTS-1`, the datum
`{ point: i, value: i < buffer.length ? buffer[i] : null }`. -/
def buildChartData (buffer : List ℚ) : List ChartDatum :=
  (List.range POINTS).map fun i =>
    { point := i
      value := if i < buffer.length then some (buffer.getD i 0) else none }

/-- The buffer update of `WaveformChart`'s packet effect for one
channel: `b.push(v); if (b.length > POINTS) b.shift();`. -/
def pushValue (b : List ℚ) (v : ℚ) : List ℚ :=
  let b' := b ++ [v]
  if b'.length > POINTS then b'.tail else b'

/-- `computeYDomain(buffer, autoScale)`: fixed range `[0, Y_MAX]`
unless autoscale is on and the buffer non-empty; otherwise scan for
min and max, `pad = (max - min) * 0.05 || 1`, and clamp
`[min - pad, max + pad]` to `[0, Y_MAX]` via `Math.max`/`Math.min`. -/
def computeYDomain : List ℚ → Bool → ℚ × ℚ
  | _, false => (0, Y_MAX)
  | [], _ => (0, Y_MAX)
  | v :: rest, true =>
    let mn := rest.foldl min v
    let mx := rest.foldl max v
    let pad0 := (mx - mn) * (5 / 100)
    let pad := if pad0 = 0 then 1 else pad0
    (max 0 (mn - pad), min Y_MAX (mx + pad))

/-- A concrete 21-value window used to exercise the FIFO bound past
capacity. -/
def sampleValues : List ℚ := (List.range 21).map fun n => (n : ℚ)

/-! ### Parser lemmas -/

theorem parsePacket_full (f : List Nat) (hf : f.length = PACKET_SIZE) :
    parsePacket f 0 = Except.ok (decodeFrame f) := by
  unfold parsePacket decodeFrame
  rw [if_neg (by omega), List.drop_zero, List.take_of_length_le (by omega)]

/-! ### Frame assembler lemmas -/

theorem leftover_length_aux :
    ∀ n, ∀ buf : List Nat, buf.length ≤ n → (leftover buf).length < PACKET_SIZE := by
  intro n
  induction n with
  | zero =>
    intro buf h
    unfold leftover
    rw [dif_neg (by simp only [PACKET_SIZE]; omega)]
    simp only [PACKET_SIZE]; omega
  | succ n ih =>
    intro buf h
    unfold leftover
    split
    · next h16 =>
      exact ih _ (by simp only [List.length_drop, PACKET_SIZE] at *; omega)
    · next h16 => simp only [PACKET_SIZE] at *; omega

theorem leftover_length (buf : List Nat) : (leftover buf).length < PACKET_SIZE :=
  leftover_length_aux buf.length buf le_rfl

theorem drainFrames_spec_aux :
    ∀ n, ∀ buf : List Nat, buf.length ≤ n →
      drainFrames buf =
        ((frames buf).map fun f => LoopEvent.packet (decodeFrame f), leftover buf) := by
  intro n
  induction n with
  | zero =>
    intro buf h
    unfold drainFrames frames leftover
    rw [dif_neg (by simp only [PACKET_SIZE]; omega), dif_neg (by simp only [PACKET_SIZE]; omega),
      dif_neg (by simp only [PACKET_SIZE]; omega)]
    simp
  | succ n ih =>
    intro buf h
    by_cases h16 : PACKET_SIZE ≤ buf.length
    · unfold drainFrames frames leftover
      rw [dif_pos h16, dif_pos h16, dif_pos h16]
      simp only [parsePacket_full (buf.take PACKET_SIZE)
        (by simp only [List.length_take]; simp only [PACKET_SIZE] at *; omega)]
      rw [ih (buf.drop PACKET_SIZE)
        (by simp only [List.length_drop]; simp only [PACKET_SIZE] at *; omega)]
      simp
    · unfold drainFrames frames leftover
      rw [dif_neg h16, dif_neg h16, dif_neg h16]
      simp

theorem drainFrames_spec (buf : List Nat) :
    drainFrames buf =
      ((frames buf).map fun f => LoopEvent.packet (decodeFrame f), leftover buf) :=
  drainFrames_spec_aux buf.length buf le_rfl

theorem frames_leftover_append_aux :
    ∀ n, ∀ a b : List Nat, a.length ≤ n →
      frames (a ++ b) = frames a ++ frames (leftover a ++ b) ∧
      leftover (a ++ b) = leftover (leftover a ++ b) := by
  intro n
  induction n with
  | zero =>
    intro a b h
    have ha : a = [] := List.length_eq_zero.mp (by omega)
    subst ha
    constructor
    · conv_lhs => rw [List.nil_append]
      rw [show frames [] = [] by unfold frames; rw [dif_neg (by simp [PACKET_SIZE])],
        show leftover [] = [] by unfold leftover; rw [dif_neg (by simp [PACKET_SIZE])]]
      simp
    · conv_lhs => rw [List.nil_append]
      rw [show leftover [] = [] by unfold leftover; rw [dif_neg (by simp [PACKET_SIZE])]]
      simp
  | succ n ih =>
    intro a b h
    by_cases h16 : PACKET_SIZE ≤ a.length
    · have h16ab : PACKET_SIZE ≤ (a ++ b).length := by
        simp only [List.length_append]; omega
      have hd : (a ++ b).drop PACKET_SIZE = a.drop PACKET_SIZE ++ b :=
        List.drop_append_of_le_length h16
      have hih := ih (a.drop PACKET_SIZE) b
        (by simp only [List.length_drop]; simp only [PACKET_SIZE] at *; omega)
      constructor
      · conv_lhs => rw [frames]
        rw [dif_pos h16ab, List.take_append_of_le_length h16, hd, hih.1]
        conv_rhs => rw [frames]
        rw [dif_pos h16]
        rw [show leftover a = leftover (a.drop PACKET_SIZE) by
          conv_lhs => rw [leftover]
          rw [dif_pos h16]]
        simp
      · conv_lhs => rw [leftover]
        rw [dif_pos h16ab, hd, hih.2]
        rw [show leftover a = leftover (a.drop PACKET_SIZE) by
          conv_lhs => rw [leftover]
          rw [dif_pos h16]]
    · have hla : frames a = [] := by unfold frames; rw [dif_neg h16]
      have hlb : leftover a = a := by unfold leftover; rw [dif_neg h16]
      rw [hla, hlb]
      simp

theorem frames_leftover_append (a b : List Nat) :
    frames (a ++ b) = frames a ++ frames (leftover a ++ b) ∧
    leftover (a ++ b) = leftover (leftover a ++ b) :=
  frames_leftover_append_aux a.length a b le_rfl

theorem frames_length_aux :
    ∀ n, ∀ buf : List Nat, buf.length ≤ n →
      (frames buf).length = buf.length / PACKET_SIZE := by
  intro n
  induction n with
  | zero =>
    intro buf h
    unfold frames
    rw [dif_neg (by simp only [PACKET_SIZE]; omega)]
    simp only [List.length_nil, PACKET_SIZE]
    omega
  | succ n ih =>
    intro buf h
    by_cases h16 : PACKET_SIZE ≤ buf.length
    · unfold frames
      rw [dif_pos h16]
      rw [List.length_cons, ih (buf.drop PACKET_SIZE)
        (by simp only [List.length_drop]; simp only [PACKET_SIZE] at *; omega)]
      simp only [List.length_drop]
      simp only [PACKET_SIZE] at *
      omega
    · unfold frames
      rw [dif_neg h16]
      simp only [List.length_nil, PACKET_SIZE] at *
      omega

theorem frames_length (buf : List Nat) :
    (frames buf).length = buf.length / PACKET_SIZE :=
  frames_length_aux buf.length buf le_rfl

theorem frames_sizes_aux :
    ∀ n, ∀ buf : List Nat, buf.length ≤ n → ∀ f ∈ frames buf, f.length = PACKET_SIZE := by
  intro n
  induction n with
  | zero =>
    intro buf h f hf
    rw [show frames buf = [] by
      unfold frames; rw [dif_neg (by simp only [PACKET_SIZE]; omega)]] at hf
    simp at hf
  | succ n ih =>
    intro buf h f hf
    by_cases h16 : PACKET_SIZE ≤ buf.length
    · rw [show frames buf = buf.take PACKET_SIZE :: frames (buf.drop PACKET_SIZE) by
        conv_lhs => rw [frames]
        rw [dif_pos h16]] at hf
      rcases List.mem_cons.mp hf with hf | hf
      · subst hf
        simp only [List.length_take]
        simp only [PACKET_SIZE] at *
        omega
      · exact ih (buf.drop PACKET_SIZE)
          (by simp only [List.length_drop]; simp only [PACKET_SIZE] at *; omega) f hf
    · rw [show frames buf = [] by unfold frames; rw [dif_neg h16]] at hf
      simp at hf

theorem frames_sizes (buf : List Nat) : ∀ f ∈ frames buf, f.length = PACKET_SIZE :=
  frames_sizes_aux buf.length buf le_rfl

/-! ### Read loop lemmas -/

theorem runReadLoop_chunks (chunks : List (List Nat)) :
    ∀ (i : Nat) (buf : List Nat), buf.length < PACKET_SIZE →
      runReadLoop (fun _ => false) i buf (chunks.map ReadResult.chunk) =
        (frames (buf ++ chunks.flatten)).map fun f => LoopEvent.packet (decodeFrame f) := by
  induction chunks with
  | nil =>
    intro i buf h
    simp only [List.map_nil, runReadLoop, List.flatten_nil, List.append_nil]
    rw [show frames buf = [] by unfold frames; rw [dif_neg (by omega)]]
    simp
  | cons c cs ih =>
    intro i buf h
    simp only [List.map_cons, runReadLoop, Bool.false_eq_true, if_false]
    rw [drainFrames_spec]
    simp only
    rw [ih (i + 1) (leftover (buf ++ c)) (leftover_length _)]
    rw [← List.map_append]
    congr 1
    have hfl := (frames_leftover_append (buf ++ c) cs.flatten).1
    rw [List.flatten_cons, ← List.append_assoc]
    exact hfl.symm

theorem runReadLoop_take (ab : Nat → Bool)
    (hmono : ∀ i j, i ≤ j → ab i = true → ab j = true) :
    ∀ (reads : List ReadResult) (n i : Nat) (buf : List Nat), ab (i + n) = true →
      runReadLoop ab i buf reads = runReadLoop ab i buf (reads.take n) := by
  intro reads
  induction reads with
  | nil => intro n i buf h; simp
  | cons r rest ih =>
    intro n i buf h
    match n with
    | 0 =>
      have hi : ab i = true := by simpa using h
      simp [runReadLoop, hi]
    | Nat.succ m =>
      rw [List.take_succ_cons]
      simp only [runReadLoop]
      by_cases hi : ab i
      · simp [hi]
      · simp only [hi, Bool.false_eq_true, if_false]
        cases r with
        | chunk c =>
          simp only
          rw [ih m (i + 1) _ (by rw [show i + 1 + m = i + (m + 1) by omega]; exact h)]
        | done => rfl
        | fail b => rfl

theorem drainFrames_no_parseError (buf : List Nat) :
    LoopEvent.parseError ∉ (drainFrames buf).1 := by
  rw [drainFrames_spec]
  simp

theorem runReadLoop_no_parseError :
    ∀ (reads : List ReadResult) (ab : Nat → Bool) (i : Nat) (buf : List Nat),
      LoopEvent.parseError ∉ runReadLoop ab i buf reads := by
  intro reads
  induction reads with
  | nil => intro ab i buf; simp [runReadLoop]
  | cons r rest ih =>
    intro ab i buf
    simp only [runReadLoop]
    by_cases hi : ab i
    · simp [hi]
    · simp only [hi, Bool.false_eq_true, if_false]
      cases r with
      | chunk c =>
        rw [List.mem_append]
        push_neg
        exact ⟨drainFrames_no_parseError _, ih ab (i + 1) _⟩
      | done => simp
      | fail b => cases b <;> simp

/-! ### Window buffer lemmas -/

theorem pushValue_eq (b : List ℚ) (v : ℚ) (hb : b.length ≤ POINTS) :
    pushValue b v = (b ++ [v]).drop (b.length + 1 - POINTS) := by
  simp only [pushValue]
  split
  · next h =>
    simp only [List.length_append, List.length_cons, List.length_nil, POINTS] at h hb ⊢
    rw [← List.drop_one]
    congr 1
    omega
  · next h =>
    simp only [List.length_append, List.length_cons, List.length_nil, POINTS] at h hb ⊢
    rw [show b.length + 1 - 20 = 0 by omega, List.drop_zero]

theorem pushValue_length_le (b : List ℚ) (v : ℚ) (hb : b.length ≤ POINTS) :
    (pushValue b v).length ≤ POINTS := by
  rw [pushValue_eq b v hb]
  simp only [List.length_drop, List.length_append, List.length_cons, List.length_nil,
    POINTS] at *
  omega

theorem foldl_pushValue (vs : List ℚ) : ∀ b : List ℚ, b.length ≤ POINTS →
    vs.foldl pushValue b = (b ++ vs).drop (b.length + vs.length - POINTS) := by
  induction vs with
  | nil =>
    intro b hb
    simp only [List.foldl_nil, List.append_nil, List.length_nil, Nat.add_zero]
    rw [show b.length - POINTS = 0 by simp only [POINTS] at hb ⊢; omega, List.drop_zero]
  | cons v t ih =>
    intro b hb
    rw [List.foldl_cons, ih (pushValue b v) (pushValue_length_le b v hb), pushValue_eq b v hb]
    rw [List.length_drop, ← List.drop_append_of_le_length
      (by simp only [List.length_append, List.length_cons, List.length_nil, POINTS] at hb ⊢
          omega),
      List.drop_drop, List.append_assoc, List.singleton_append, List.length_cons]
    congr 1
    simp only [List.length_append, List.length_cons, List.length_nil, POINTS] at hb ⊢
    omega

theorem buildChartData_getD (buffer : List ℚ) (i : Nat) (hi : i < POINTS) :
    (buildChartData buffer).getD i ⟨0, none⟩ =
      { point := i
        value := if i < buffer.length then some (buffer.getD i 0) else none } := by
  simp [buildChartData, List.getD_eq_getElem?_getD, List.getElem?_map, List.getElem?_range hi]

/-! ### Autoscale lemmas -/

theorem le_foldl_min (l : List ℚ) : ∀ v c : ℚ, c ≤ v → (∀ x ∈ l, c ≤ x) →
    c ≤ l.foldl min v := by
  induction l with
  | nil => intro v c hc _; simpa using hc
  | cons a t ih =>
    intro v c hc hl
    rw [List.foldl_cons]
    exact ih (min v a) c (le_min hc (hl a (List.mem_cons_self a t)))
      fun x hx => hl x (List.mem_cons_of_mem a hx)

theorem foldl_max_le (l : List ℚ) : ∀ v c : ℚ, v ≤ c → (∀ x ∈ l, x ≤ c) →
    l.foldl max v ≤ c := by
  induction l with
  | nil => intro v c hc _; simpa using hc
  | cons a t ih =>
    intro v c hc hl
    rw [List.foldl_cons]
    exact ih (max v a) c (max_le hc (hl a (List.mem_cons_self a t)))
      fun x hx => hl x (List.mem_cons_of_mem a hx)

theorem foldl_min_le_foldl_max (l : List ℚ) : ∀ v w : ℚ, v ≤ w →
    l.foldl min v ≤ l.foldl max w := by
  induction l with
  | nil => intro v w h; simpa using h
  | cons a t ih =>
    intro v w h
    rw [List.foldl_cons, List.foldl_cons]
    exact ih _ _ (le_trans (min_le_left v a) (le_trans h (le_max_left w a)))

/-! ### Claim theorems -/

/-- C1: for every finite sequence of byte chunks delivered by the
reader, `startReadLoop` invokes `onPacket` exactly once per
consecutive 16-byte frame of the concatenation of all received bytes,
in stream order, each sample decoded from that frame, with no bytes
lost and no reordering; in particular two chunks of sizes 10 and 22
(two frames split at byte 10) yield the same events as one 32-byte
chunk, namely exactly 2 decoded samples. -/
theorem claim_C1_frame_reassembly (chunks : List (List Nat)) :
    runReadLoop (fun _ => false) 0 [] (chunks.map ReadResult.chunk) =
      (frames chunks.flatten).map (fun f => LoopEvent.packet (decodeFrame f)) ∧
    runReadLoop (fun _ => false) 0 []
        [ReadResult.chunk ((List.range 32).take 10), ReadResult.chunk ((List.range 32).drop 10)] =
      runReadLoop (fun _ => false) 0 [] [ReadResult.chunk (List.range 32)] ∧
    (runReadLoop (fun _ => false) 0 [] [ReadResult.chunk (List.range 32)]).length = 2 := by
  have huniv : ∀ cs : List (List Nat),
      runReadLoop (fun _ => false) 0 [] (cs.map ReadResult.chunk) =
        (frames cs.flatten).map fun f => LoopEvent.packet (decodeFrame f) := by
    intro cs
    have h := runReadLoop_chunks cs 0 [] (by simp [PACKET_SIZE])
    simpa using h
  refine ⟨huniv chunks, ?_, ?_⟩
  · have h1 := huniv [(List.range 32).take 10, (List.range 32).drop 10]
    have h2 := huniv [List.range 32]
    simp only [List.map_cons, List.map_nil] at h1 h2
    rw [h1, h2]
    congr 1
  · have h2 := huniv [List.range 32]
    simp only [List.map_cons, List.map_nil] at h2
    rw [h2, List.length_map, frames_length]
    simp [PACKET_SIZE]

/-- C2: decoding a 16-byte block built by writing 4 unsigned 32-bit
values little-endian at offsets 0, 4, 8, 12 returns a `PacketData`
whose `ch0..ch3` are exactly those values. -/
theorem claim_C2_roundtrip_codec (a b c d : Nat)
    (ha : a < 2 ^ 32) (hb : b < 2 ^ 32) (hc : c < 2 ^ 32) (hd : d < 2 ^ 32) :
    parsePacket (putUint32LE a ++ putUint32LE b ++ putUint32LE c ++ putUint32LE d) 0 =
      Except.ok { ch0 := a, ch1 := b, ch2 := c, ch3 := d } := by
  simp only [parsePacket, putUint32LE, getUint32LE, BYTES_PER_CHANNEL, PACKET_SIZE,
    List.append_assoc, List.cons_append, List.nil_append, List.length_cons, List.length_nil,
    List.drop_zero, List.take, List.getD, List.getElem?_cons_zero, List.getElem?_cons_succ,
    Option.getD_some]
  norm_num
  refine ⟨?_, ?_, ?_, ?_⟩ <;> omega

/-- C2 witness: the round trip at the concrete channel values
123, 0, 4294967295, 777. -/
theorem claim_C2_roundtrip_codec_witness :
    parsePacket
        (putUint32LE 123 ++ putUint32LE 0 ++ putUint32LE 4294967295 ++ putUint32LE 777) 0 =
      Except.ok { ch0 := 123, ch1 := 0, ch2 := 4294967295, ch3 := 777 } :=
  claim_C2_roundtrip_codec 123 0 4294967295 777
    (by norm_num) (by norm_num) (by norm_num) (by norm_num)

/-- C3: a per-channel buffer built by any sequence of pushes never
exceeds 20 entries; the final buffer is exactly the last 20 pushed
values oldest-first (the oldest entry is evicted on overflow); and
`buildChartData` is a snapshot of length exactly 20 whose position `i`
holds the buffer's `i`-th element when `i` is below the current
length and is absent (`none`) otherwise — so for more than 20 pushes
every position is present and equals the corresponding one of the
last 20 pushed values. -/
theorem claim_C3_window_fifo_snapshot (vs : List ℚ) (k i : Nat) (hi : i < POINTS) :
    ((vs.take k).foldl pushValue []).length ≤ POINTS ∧
    vs.foldl pushValue [] = vs.drop (vs.length - POINTS) ∧
    (vs.foldl pushValue []).length = min vs.length POINTS ∧
    (buildChartData (vs.foldl pushValue [])).length = POINTS ∧
    (buildChartData (vs.foldl pushValue [])).getD i ⟨0, none⟩ =
      { point := i
        value := if i < (vs.foldl pushValue []).length
          then some ((vs.foldl pushValue []).getD i 0) else none } ∧
    (POINTS < vs.length →
      (buildChartData (vs.foldl pushValue [])).getD i ⟨0, none⟩ =
        { point := i, value := some ((vs.drop (vs.length - POINTS)).getD i 0) }) := by
  have hfold : vs.foldl pushValue [] = vs.drop (vs.length - POINTS) := by
    have h := foldl_pushValue vs [] (by simp [POINTS])
    simpa using h
  have hlen : (vs.foldl pushValue []).length = min vs.length POINTS := by
    rw [hfold, List.length_drop]; omega
  refine ⟨?_, hfold, hlen, by simp [buildChartData], buildChartData_getD _ i hi, ?_⟩
  · have h := foldl_pushValue (vs.take k) [] (by simp [POINTS])
    simp only [List.length_nil, Nat.zero_add, List.nil_append] at h
    rw [h, List.length_drop, List.length_take]
    omega
  · intro hN
    rw [buildChartData_getD _ i hi, hfold]
    have hid : i < (vs.drop (vs.length - POINTS)).length := by
      rw [List.length_drop]; omega
    simp [hid]
    simp only [POINTS] at hN hi ⊢
    omega

/-- C3 witness: 21 pushes into the window, checked at snapshot
position 3. -/
theorem claim_C3_window_fifo_snapshot_witness :
    ((sampleValues.take 21).foldl pushValue []).length ≤ POINTS ∧
    sampleValues.foldl pushValue [] = sampleValues.drop (sampleValues.length - POINTS) ∧
    (sampleValues.foldl pushValue []).length = min sampleValues.length POINTS ∧
    (buildChartData (sampleValues.foldl pushValue [])).length = POINTS ∧
    (buildChartData (sampleValues.foldl pushValue [])).getD 3 ⟨0, none⟩ =
      { point := 3
        value := if 3 < (sampleValues.foldl pushValue []).length
          then some ((sampleValues.foldl pushValue []).getD 3 0) else none } ∧
    (POINTS < sampleValues.length →
      (buildChartData (sampleValues.foldl pushValue [])).getD 3 ⟨0, none⟩ =
        { point := 3
          value := some ((sampleValues.drop (sampleValues.length - POINTS)).getD 3 0) }) :=
  claim_C3_window_fifo_snapshot sampleValues 21 3 (by decide)

/-- C4: with autoscale on, the window `[10, 20, 30]` yields exactly
the display range `(9, 31)` (pad `= (30-10)*0.05 = 1`), and the
window `[5]` (min = max, pad falls back to 1) yields exactly
`(4, 6)`. -/
theorem claim_C4_autoscale_values :
    computeYDomain [10, 20, 30] true = (9, 31) ∧ computeYDomain [5] true = (4, 6) := by
  constructor
  · simp [computeYDomain, Y_MAX, min_def, max_def]
    norm_num
  · simp [computeYDomain, Y_MAX, min_def, max_def]
    norm_num

/-- C5: `parsePacket` fails exactly when the buffer is shorter than
`offset + 16` bytes; under the precondition it always succeeds (so a
failure never produces a `PacketData`), and it never reads outside the
buffer: its result only depends on the first `offset + 16` bytes. -/
theorem claim_C5_parse_fails_iff_short (buffer : List Nat) (offset : Nat) :
    ((parsePacket buffer offset).isOk ↔ offset + PACKET_SIZE ≤ buffer.length) ∧
    ((∃ e, parsePacket buffer offset = Except.error e) ↔
      buffer.length < offset + PACKET_SIZE) ∧
    parsePacket buffer offset = parsePacket (buffer.take (offset + PACKET_SIZE)) offset := by
  refine ⟨?_, ?_, ?_⟩
  · unfold parsePacket
    split
    · next h => simp only [PACKET_SIZE] at h; simp [Except.isOk, Except.toBool, PACKET_SIZE]; omega
    · next h => simp only [PACKET_SIZE] at h; simp [Except.isOk, Except.toBool, PACKET_SIZE]; omega
  · unfold parsePacket
    split
    · next h => simp only [PACKET_SIZE] at h; simp [PACKET_SIZE]; omega
    · next h => simp only [PACKET_SIZE] at h; simp [PACKET_SIZE]; omega
  · unfold parsePacket
    by_cases hlen : buffer.length < offset + PACKET_SIZE
    · rw [if_pos hlen, if_pos (by simp only [List.length_take]; omega)]
    · rw [if_neg hlen, if_neg (by simp only [List.length_take]; omega)]
      have hdt : (buffer.take (offset + PACKET_SIZE)).drop offset =
          (buffer.drop offset).take PACKET_SIZE := by
        rw [List.drop_take]
        congr 1
        omega
      rw [hdt, List.take_take]
      simp

/-- C6: once the cancellation signal is set (at iteration `k`, and
monotonically from then on, as an `AbortSignal` is), the read loop
produces exactly the events of the reads before cancellation — no
`onPacket` for any chunk that arrives after cancellation — and a read
ending in an `AbortError` invokes no error callback at all. -/
theorem claim_C6_cancellation_silent (ab : Nat → Bool) (k i : Nat) (buf : List Nat)
    (reads rest : List ReadResult)
    (hmono : ∀ i' j', i' ≤ j' → ab i' = true → ab j' = true) (hk : ab k = true) :
    runReadLoop ab 0 [] reads = runReadLoop ab 0 [] (reads.take k) ∧
    runReadLoop ab i buf (ReadResult.fail true :: rest) = [] := by
  constructor
  · exact runReadLoop_take ab hmono reads k 0 [] (by simpa using hk)
  · simp only [runReadLoop]
    by_cases hi : ab i <;> simp [hi]

/-- C6 witness: a signal aborted from the start suppresses a pending
chunk, and an `AbortError` read produces no events. -/
theorem claim_C6_cancellation_silent_witness :
    runReadLoop (fun _ => true) 0 [] [ReadResult.chunk [1, 2, 3]] =
      runReadLoop (fun _ => true) 0 [] ([ReadResult.chunk [1, 2, 3]].take 0) ∧
    runReadLoop (fun _ => true) 0 [] [ReadResult.fail true] = [] :=
  claim_C6_cancellation_silent (fun _ => true) 0 0 [] [ReadResult.chunk [1, 2, 3]] []
    (fun _ _ _ h => h) rfl

/-- C7: for every window of values in `[0, 2^32 - 1]` and every
autoscale flag, the display range `(low, high)` satisfies `0 ≤ low`,
`high ≤ 2^32` and `low ≤ high`. -/
theorem claim_C7_display_range_clamped (buffer : List ℚ) (autoScale : Bool)
    (hb : ∀ x ∈ buffer, 0 ≤ x ∧ x ≤ 2 ^ 32 - 1) :
    0 ≤ (computeYDomain buffer autoScale).1 ∧
    (computeYDomain buffer autoScale).2 ≤ 2 ^ 32 ∧
    (computeYDomain buffer autoScale).1 ≤ (computeYDomain buffer autoScale).2 := by
  match buffer, autoScale with
  | buf, false => simp [computeYDomain, Y_MAX]
  | [], true => simp [computeYDomain, Y_MAX]
  | v :: rest, true =>
    have h0mn : (0 : ℚ) ≤ rest.foldl min v :=
      le_foldl_min rest v 0 (hb v (List.mem_cons_self v rest)).1
        fun x hx => (hb x (List.mem_cons_of_mem v hx)).1
    have hmxle : rest.foldl max v ≤ 2 ^ 32 - 1 :=
      foldl_max_le rest v (2 ^ 32 - 1) (hb v (List.mem_cons_self v rest)).2
        fun x hx => (hb x (List.mem_cons_of_mem v hx)).2
    have hmnmx : rest.foldl min v ≤ rest.foldl max v :=
      foldl_min_le_foldl_max rest v v le_rfl
    simp only [computeYDomain]
    set mn := rest.foldl min v
    set mx := rest.foldl max v
    set pad := if (mx - mn) * (5 / 100) = 0 then (1 : ℚ) else (mx - mn) * (5 / 100)
      with hpaddef
    have hpad : 0 ≤ pad := by
      rw [hpaddef]
      split
      · norm_num
      · have hmm : (0 : ℚ) ≤ mx - mn := by linarith
        positivity
    refine ⟨le_max_left 0 _, ?_, ?_⟩
    · simpa [Y_MAX] using min_le_left Y_MAX (mx + pad)
    · apply le_min
      · apply max_le
        · simp [Y_MAX]
        · simp only [Y_MAX]
          norm_num
          linarith
      · apply max_le
        · linarith
        · linarith

/-- C7 witness: a window holding both boundary values 0 and
`2^32 - 1` stays clamped. -/
theorem claim_C7_display_range_clamped_witness :
    0 ≤ (computeYDomain [0, 4294967295] true).1 ∧
    (computeYDomain [0, 4294967295] true).2 ≤ 2 ^ 32 ∧
    (computeYDomain [0, 4294967295] true).1 ≤ (computeYDomain [0, 4294967295] true).2 :=
  claim_C7_display_range_clamped [0, 4294967295] true
    (by
      intro x hx
      simp only [List.mem_cons, List.not_mem_nil, or_false] at hx
      rcases hx with rfl | rfl <;> norm_num)

/-- C8: the frame assembler's carry-over is invariant-bounded: at
every loop iteration boundary (after any prefix of the chunk
sequence, and at termination) the internal byte buffer holds strictly
fewer than `PACKET_SIZE = 16` bytes. -/
theorem claim_C8_carry_bounded (chunks : List (List Nat)) (k : Nat) :
    (carryAfter (chunks.take k)).length < PACKET_SIZE ∧
    (carryAfter chunks).length < PACKET_SIZE := by
  have hinv : ∀ (l : List (List Nat)) (buf : List Nat), buf.length < PACKET_SIZE →
      (l.foldl (fun b c => (drainFrames (b ++ c)).2) buf).length < PACKET_SIZE := by
    intro l
    induction l with
    | nil => intro buf h; simpa using h
    | cons c cs ih =>
      intro buf h
      rw [List.foldl_cons]
      apply ih
      rw [drainFrames_spec]
      exact leftover_length _
  exact ⟨hinv (chunks.take k) [] (by simp [PACKET_SIZE]),
    hinv chunks [] (by simp [PACKET_SIZE])⟩

/-- C9: every block the read loop splices out of its buffer has
exactly 16 bytes, `parsePacket` succeeds on it, and therefore the
decode-failure branch (the inner `catch` reporting a short frame via
`onError`) is unreachable: no run of the read loop ever emits a parse
error. -/
theorem claim_C9_parse_error_unreachable (ab : Nat → Bool) (i : Nat)
    (buf carry f : List Nat) (reads : List ReadResult) (hf : f ∈ frames carry) :
    f.length = PACKET_SIZE ∧ parsePacket f 0 = Except.ok (decodeFrame f) ∧
    LoopEvent.parseError ∉ runReadLoop ab i buf reads := by
  have hlen : f.length = PACKET_SIZE := frames_sizes carry f hf
  exact ⟨hlen, parsePacket_full f hlen, runReadLoop_no_parseError reads ab i buf⟩

/-- C9 witness: the single 16-byte frame of a 16-byte buffer, and a
parse-error-free run over one chunk. -/
theorem claim_C9_parse_error_unreachable_witness :
    (List.range 16).length = PACKET_SIZE ∧
    parsePacket (List.range 16) 0 = Except.ok (decodeFrame (List.range 16)) ∧
    LoopEvent.parseError ∉
      runReadLoop (fun _ => false) 0 [] [ReadResult.chunk (List.range 16)] := by
  have hfr : frames (List.range 16) = [List.range 16] := by
    conv_lhs => rw [frames]
    rw [dif_pos (by simp [PACKET_SIZE]),
      List.take_of_length_le (by simp [PACKET_SIZE]),
      List.drop_eq_nil_of_le (by simp [PACKET_SIZE])]
    conv_lhs => rw [frames]
    rw [dif_neg (by simp [PACKET_SIZE])]
  exact claim_C9_parse_error_unreachable (fun _ => false) 0 [] (List.range 16)
    (List.range 16) [ReadResult.chunk (List.range 16)]
    (by rw [hfr]; exact List.mem_singleton.mpr rfl)

/-- C10: `parsePacket` accepts over-long buffers: whenever the buffer
holds at least `offset + 16` bytes it succeeds, and its result depends
only on the bytes in `[offset, offset + 16)` — any two buffers that
agree on that window parse identically. -/
theorem claim_C10_parse_overlong_window (b1 b2 : List Nat) (o : Nat)
    (h1 : o + PACKET_SIZE ≤ b1.length) (h2 : o + PACKET_SIZE ≤ b2.length)
    (hw : (b1.drop o).take PACKET_SIZE = (b2.drop o).take PACKET_SIZE) :
    (parsePacket b1 o).isOk = true ∧ parsePacket b1 o = parsePacket b2 o := by
  unfold parsePacket
  rw [if_neg (by simp only [PACKET_SIZE] at h1 ⊢; omega),
    if_neg (by simp only [PACKET_SIZE] at h2 ⊢; omega)]
  rw [hw]
  simp [Except.isOk, Except.toBool]

/-- C10 witness: a 20-byte buffer parses like a 16-byte buffer padded
with different trailing junk. -/
theorem claim_C10_parse_overlong_window_witness :
    (parsePacket (List.range 20) 0).isOk = true ∧
    parsePacket (List.range 20) 0 = parsePacket (List.range 16 ++ [99, 88, 77, 66]) 0 :=
  claim_C10_parse_overlong_window (List.range 20) (List.range 16 ++ [99, 88, 77, 66]) 0
    (by simp [PACKET_SIZE]) (by simp [PACKET_SIZE]) (by decide)

end ReactGuiTool
